import Mathlib

/-!
Verification development for the QLever UI end-to-end test harness
(`end2end-test.py`).  Python strings are modelled as `List Char`; the
browser/driver (Selenium `PageSession`) is modelled by environment records
that state which page elements are present and what text they carry.
Fallible Python operations (IndexError, AttributeError from
`re.search(...).groups()`, Selenium's `NoSuchElementException`) are modelled
with `Except`: an `Except.error` is an uncaught Python exception unless the
surrounding code catches it.
-/

set_option autoImplicit false

deriving instance DecidableEq for Except

namespace E2E

/-! ### Character classes

`\w` of Python `re` is modelled over the ASCII range (letters, digits,
underscore); the test data in the repository is ASCII. -/

def wordChar (c : Char) : Bool := c.isAlphanum || c == '_'

/-- The separator class of `re.split(r'["@]+', ...)`: a quote or an `@`. -/
def isSep (c : Char) : Bool := c == '"' || c == '@'

/-! ### Python string primitives used by `Hint.parse` -/

/-- Model of `text.split('/')`: split on every occurrence of `c`, keeping empty
fields.  `''.split('/') == ['']`, so the result is never the empty list. -/
def splitOnChar (c : Char) : List Char → List (List Char)
  | [] => [[]]
  | x :: xs =>
    match splitOnChar c xs with
    | [] => [[]]
    | y :: ys => if x = c then [] :: y :: ys else (x :: y) :: ys

/-- Model of `re.split(r'["@]+', s)`: fields between maximal runs of separator
characters, with an empty field at either end when the string starts or
ends with a separator run.  Never returns the empty list. -/
def splitSeps : List Char → List (List Char)
  | [] => [[]]
  | x :: xs =>
    match splitSeps xs with
    | [] => [[]]
    | y :: ys =>
      if isSep x then
        match xs with
        | [] => [] :: y :: ys
        | x2 :: _ => if isSep x2 then y :: ys else [] :: y :: ys
      else (x :: y) :: ys

/-- Python `str.strip()`: drop whitespace from both ends. -/
def stripChars (s : List Char) : List Char :=
  ((s.dropWhile Char.isWhitespace).reverse.dropWhile Char.isWhitespace).reverse

/-! ### The regex `(\w+):([A-Z]\d+)`

For this particular pattern, backtracking collapses: a match starting at a
position exists iff the maximal word-character run from that position is
non-empty and is followed by `:`, an uppercase letter and at least one
digit.  `matchAt` is the anchored match, `reSearch` the leftmost search of
`re.search`, returning the two capture groups. -/

def matchAt (s : List Char) : Option (List Char × List Char) :=
  let w := s.takeWhile wordChar
  if w = [] then none
  else
    match s.dropWhile wordChar with
    | ':' :: u :: rest2 =>
      if u.isUpper then
        let ds := rest2.takeWhile Char.isDigit
        if ds = [] then none else some (w, u :: ds)
      else none
    | _ => none

def reSearch : List Char → Option (List Char × List Char)
  | [] => none
  | x :: xs =>
    match matchAt (x :: xs) with
    | some g => some g
    | none => reSearch xs

/-! ### Sequential effectful map

Python `for`-loops and list comprehensions run left to right and stop at
the first uncaught exception; `exceptMap` is that evaluation order. -/

def exceptMap {ε α β : Type} (f : α → Except ε β) : List α → Except ε (List β)
  | [] => .ok []
  | a :: as =>
    match f a with
    | .error e => .error e
    | .ok b =>
      match exceptMap f as with
      | .error e => .error e
      | .ok bs => .ok (b :: bs)

/-! ### `Hint` (source: `class Hint`, `end2end-test.py` lines 25-47) -/

structure Hint where
  fulltext : List Char
  database_type : List Char
  database_id : List Char
  name_language_pairs : List (List Char × List Char)
  primary_name : List Char
deriving DecidableEq, Repr

/-- The name and language subfields of one `/`-segment:
`elements = re.split(r'["@]+', part.strip())`, then `elements[1]` and
`elements[2]` (an `IndexError` when the segment has fewer subfields). -/
def subfields (part : List Char) : Except Unit (List Char × List Char) :=
  match (splitSeps (stripChars part)).get? 1, (splitSeps (stripChars part)).get? 2 with
  | some n, some l => .ok (n, l)
  | _, _ => .error ()

/-- Model of `Hint.parse` (lines 31-44).  Returns `(database_type, database_id,
name_language_pairs)`.  The `kind:identifier` search runs only on the first
subfield (`elements[0]`) of the first `/`-segment, because `database_type`
is set there and stays truthy; a failed search raises (`.groups()` on
`None`), modelled as `.error ()`. -/
def Hint.parse (text : List Char) :
    Except Unit (List Char × List Char × List (List Char × List Char)) :=
  match splitOnChar '/' text with
  | [] => .error () -- unreachable: splitOnChar never returns []
  | p0 :: rest =>
    match reSearch ((splitSeps (stripChars p0)).headD []) with
    | none => .error ()
    | some (t, i) =>
      match subfields p0 with
      | .error e => .error e
      | .ok pr0 =>
        match exceptMap subfields rest with
        | .error e => .error e
        | .ok prs => .ok (t, i, pr0 :: prs)

/-- Model of `Hint.__init__` (lines 26-29): parse, then take
`name_language_pairs[0][0]` as the primary name. -/
def Hint.ofText (text : List Char) : Except Unit Hint :=
  match Hint.parse text with
  | .error e => .error e
  | .ok (t, i, pairs) =>
    match pairs with
    | [] => .error () -- unreachable: parse yields one pair per segment, and there is at least one segment
    | p :: _ => .ok ⟨text, t, i, pairs, p.1⟩

/-! ### `init_page` (lines 131-148)

`attempt i = true` models attempt `i` succeeding: `driver.get` followed by
the `WebDriverWait` finding the `query` element within the timeout.
`loaded k` means the loop broke after `k` attempts; `fatalExit n` means the
last of `n` attempts failed, `done()` ran and `sys.exit(1)` was called;
`fellThrough` means the `for` body never ran (`num_retries = 0`) and the
method returned with no page loaded and no exit. -/

inductive InitResult
  | loaded (attemptsUsed : Nat)
  | fatalExit (attemptsUsed : Nat)
  | fellThrough
deriving DecidableEq, Repr

def initPageGo (attempt : Nat → Bool) (numRetries : Nat) : List Nat → InitResult
  | [] => .fellThrough
  | i :: rest =>
    if attempt i then .loaded (i + 1)
    else if i < numRetries - 1 then initPageGo attempt numRetries rest
    else .fatalExit numRetries

def initPage (attempt : Nat → Bool) (numRetries : Nat) : InitResult :=
  initPageGo attempt numRetries (List.range numRetries)

/-- The list `[s, s+1, ..., s+len-1]` of index suffixes of `range(num_retries)`;
proof apparatus for the loop of `init_page`. -/
def upRange (s : Nat) : Nat → List Nat
  | 0 => []
  | len + 1 => s :: upRange (s + 1) len

/-! ### `get_hints` (lines 154-173)

One poll observation is `none` when `find_element` on the popup `ul`
raises (caught: the loop continues), or `some texts` with the displayed
texts of the `CodeMirror-hint` elements.  `scanHints` is the inner loop
`for hint in hints: if hint.text[0] != "?": return hints`; `hint.text[0]`
raises an uncaught `IndexError` on an empty text. -/

def scanHints : List (List Char) → Except Unit Bool
  | [] => .ok false
  | t :: ts =>
    match t with
    | [] => .error ()
    | c :: _ => if c = '?' then scanHints ts else .ok true

def getHints : List (Option (List (List Char))) → Except Unit (List (List Char))
  | [] => .ok []
  | none :: rest => getHints rest
  | some hs :: rest =>
    match scanHints hs with
    | .error e => .error e
    | .ok true => .ok hs
    | .ok false => getHints rest

/-- A hint text starting with the placeholder marker `?` (the spec's
"placeholder hint").  An empty text does not start with `?`. -/
def placeholderPrefixed : List Char → Bool
  | [] => false
  | c :: _ => c == '?'

def pollNonempty (o : Option (List (List Char))) : Bool :=
  match o with
  | none => true
  | some hs => hs.all (fun t => !t.isEmpty)

def pollAllPlaceholder (o : Option (List (List Char))) : Bool :=
  match o with
  | none => true
  | some hs => hs.all placeholderPrefixed

/-! ### Hint comparison (`test_hints`, lines 243-259)

`expected` is `test_case['output']['hints']`: one list of strings per
position, used both for the membership test
`hints[i].database_id in expected_hints[i]` and, on a mismatch, for the
failure message `expected_hints[i][0], expected_hints[i][1]` (an
`IndexError` when the entry has fewer than two strings).  The result list
holds one `Bool` per compared position, in order. -/

def matchHint (h : Hint) (e : List (List Char)) : Bool :=
  decide (h.database_id ∈ e)

def compareHintsAux (hints : List Hint) : List (List (List Char)) → Nat → Except Unit (List Bool)
  | [], _ => .ok []
  | e :: es, i =>
    match hints.get? i with
    | none => .error () -- IndexError: hints[i]
    | some h =>
      if h.database_id ∈ e then
        match compareHintsAux hints es (i + 1) with
        | .error e2 => .error e2
        | .ok rs => .ok (true :: rs)
      else
        match e.get? 0, e.get? 1 with
        | some _, some _ =>
          match compareHintsAux hints es (i + 1) with
          | .error e2 => .error e2
          | .ok rs => .ok (false :: rs)
        | _, _ => .error () -- IndexError: expected_hints[i][0] / [1] in the warning

def compareHints (hints : List Hint) (expected : List (List (List Char))) :
    Except Unit (List Bool) :=
  compareHintsAux hints expected 0

inductive CaseStatus
  | passed
  | failed (numFailed : Nat)
deriving DecidableEq, Repr

/-- Final report of one hint test case (lines 256-259): success when
`hints_not_found` stayed empty, else the count of failed positions. -/
def hintCaseStatus (rs : List Bool) : CaseStatus :=
  if rs.countP (fun b => !b) = 0 then .passed else .failed (rs.countP (fun b => !b))

/-! ### Example comparison (`test_examples`, lines 213-221)

`for i in range(len(expected_output))`, compare `lines[i].text` with
`expected_output[i]`, `break` at the first mismatch, `for`-`else` records
success.  `lines[i]` raises an `IndexError` when too few lines rendered.
The returned list holds one `Bool` per position actually compared. -/

def exampleCompareGo (lines : List (List Char)) : List (List Char) → Nat → Option (List Bool × Bool)
  | [], _ => some ([], true)
  | u :: es, i =>
    match lines.get? i with
    | none => none
    | some t =>
      if t = u then
        match exampleCompareGo lines es (i + 1) with
        | none => none
        | some (rs, ok) => some (true :: rs, ok)
      else some ([false], false)

def exampleCompare (lines expected : List (List Char)) : Option (List Bool × Bool) :=
  exampleCompareGo lines expected 0

/-! ### Per-case runners and the whole run

`Abort` is how a test-case run can end the whole process: `fatalExit n`
is `init_page`'s `sys.exit(1)` after `n` failed attempts, `exception` is
any uncaught Python exception (which also terminates the interpreter with
a non-zero status). -/

inductive Abort
  | fatalExit (attempts : Nat)
  | exception
deriving DecidableEq, Repr

inductive ExampleOutcome
  | skipped
  | finished (evaluated : List Bool) (success : Bool)
deriving DecidableEq, Repr

/-- Environment for one example test case: what the page offers.
`dropdown = some d` means the dropdown element exists with
`is_displayed() = d`; `none` means `find_element` raises.  `resultBlock`
is the rendered result lines (or `none` when the result container is
missing). -/
structure ExampleCaseEnv where
  pageLoad : Nat → Bool
  buttonPresent : Bool
  dropdown : Option Bool
  entryPresent : Bool
  resultBlock : Option (List (List Char))
  expectedOutput : List (List Char)

/-- One iteration of the `test_examples` loop (lines 186-221).  A Selenium
`find_element` raises `NoSuchElementException` when the element is absent
and never returns a falsy value, so the three `if not element:` guards in
the source can never fire; only the `is_displayed()` half of the dropdown
check is live. -/
def runExampleCase (numRetries : Nat) (env : ExampleCaseEnv) : Except Abort ExampleOutcome :=
  match initPage env.pageLoad numRetries with
  | .fatalExit n => .error (.fatalExit n)
  | _ =>
    if !env.buttonPresent then .error .exception
    else
      match env.dropdown with
      | none => .error .exception
      | some displayed =>
        if !displayed then .ok .skipped
        else if !env.entryPresent then .error .exception
        else
          match env.resultBlock with
          | none => .error .exception
          | some lines =>
            match exampleCompare lines env.expectedOutput with
            | none => .error .exception
            | some (rs, ok) => .ok (.finished rs ok)

/-- Environment for one hint test case.  `textfieldPresent` is the
`send_to_textfield` lookup; `polls` the observations of `get_hints`. -/
structure HintCaseEnv where
  pageLoad : Nat → Bool
  textfieldPresent : Bool
  polls : List (Option (List (List Char)))
  expected : List (List (List Char))

/-- One iteration of the `test_hints` loop (lines 228-259): load, type,
collect hints, decode them all (line 235, a list comprehension with no
exception handling), compare positionally, report. -/
def runHintCase (numRetries : Nat) (env : HintCaseEnv) : Except Abort (List Bool × CaseStatus) :=
  match initPage env.pageLoad numRetries with
  | .fatalExit n => .error (.fatalExit n)
  | _ =>
    if !env.textfieldPresent then .error .exception
    else
      match getHints env.polls with
      | .error _ => .error .exception
      | .ok raws =>
        match exceptMap Hint.ofText raws with
        | .error _ => .error .exception
        | .ok hints =>
          match compareHints hints env.expected with
          | .error _ => .error .exception
          | .ok rs => .ok (rs, hintCaseStatus rs)

def testExamples (numRetries : Nat) (cases : List ExampleCaseEnv) :
    Except Abort (List ExampleOutcome) :=
  exceptMap (runExampleCase numRetries) cases

def testHints (numRetries : Nat) (cases : List HintCaseEnv) :
    Except Abort (List (List Bool × CaseStatus)) :=
  exceptMap (runHintCase numRetries) cases

/-- Model of `QleverUiTester.test` (lines 175-180): examples first, then hints. -/
def testAll (numRetries : Nat) (ex : List ExampleCaseEnv) (hs : List HintCaseEnv) :
    Except Abort (List ExampleOutcome × List (List Bool × CaseStatus)) :=
  match testExamples numRetries ex with
  | .error a => .error a
  | .ok es =>
    match testHints numRetries hs with
    | .error a => .error a
    | .ok hsr => .ok (es, hsr)

/-! ### Statement apparatus: the encoded-hint format of claim C8 -/

/-- One `"Name"@Lang` block. -/
def encodeSeg (p : List Char × List Char) : List Char :=
  '"' :: (p.1 ++ '"' :: '@' :: p.2)

/-- The full encoding `kind:ID"Name0"@Lang0/"Name1"@Lang1/...`. -/
def encodeHint (kind id : List Char) (pairs : List (List Char × List Char)) : List Char :=
  match pairs with
  | [] => kind ++ ':' :: id
  | p :: ps => kind ++ ':' :: id ++ encodeSeg p ++ (ps.map (fun q => '/' :: encodeSeg q)).flatten

/-- A character that may appear in an encoded name or language tag:
not a segment separator, not a subfield separator, not whitespace. -/
def plainChar (c : Char) : Bool :=
  !isSep c && !(c == '/') && !c.isWhitespace

/-! ### Concrete inputs used by counterexamples and witnesses -/

/-- A raw hint string with no `kind:identifier` marker; `Hint.parse`
raises on it. -/
def badRaw : List Char := ['g', 'a', 'r', 'b', 'a', 'g', 'e']

/-- The input `"abc:A1"@en` — the first (and only) segment contains the
`kind:identifier` pattern, but only inside the quotes, so `elements[0]`
is empty and the search fails. -/
def quotedMarker : List Char :=
  ['"', 'a', 'b', 'c', ':', 'A', '1', '"', '@', 'e', 'n']

def hintEnvBadRaw : HintCaseEnv :=
  ⟨fun _ => true, true, [some [badRaw]], []⟩

def hintEnvGood : HintCaseEnv :=
  ⟨fun _ => true, true, [], []⟩

/-- A hint test case whose polling never finds the pop-up (so `get_hints`
returns `[]`) while `expected` positions remain to be checked. -/
def hintEnvNoHints (expected : List (List (List Char))) : HintCaseEnv :=
  ⟨fun _ => true, true, [], expected⟩

def exEnvMissingButton : ExampleCaseEnv :=
  ⟨fun _ => true, false, some true, true, some [], []⟩

def exEnvHiddenDropdown : ExampleCaseEnv :=
  ⟨fun _ => true, true, some false, true, some [], []⟩

end E2E

namespace E2E

/-! ## Helper lemmas -/

/-! ### `exceptMap` -/

theorem exceptMap_ok_mem {ε α β : Type} (f : α → Except ε β) :
    ∀ (l : List α) (bs : List β), exceptMap f l = .ok bs → ∀ a ∈ l, ∃ b, f a = .ok b := by
  intro l
  induction l with
  | nil => intro bs _ a ha; exact absurd ha (List.not_mem_nil a)
  | cons x xs ih =>
    intro bs hok a ha
    rcases List.mem_cons.mp ha with rfl | hmem
    · cases hfa : f a with
      | error e => rw [exceptMap, hfa] at hok; exact absurd hok (by simp)
      | ok b => exact ⟨b, rfl⟩
    · cases hfa : f x with
      | error e => rw [exceptMap, hfa] at hok; exact absurd hok (by simp)
      | ok b =>
        rw [exceptMap, hfa] at hok
        cases hrest : exceptMap f xs with
        | error e => rw [hrest] at hok; exact absurd hok (by simp)
        | ok bs2 => exact ih bs2 hrest a hmem

theorem exceptMap_error_mem {ε α β : Type} (f : α → Except ε β) :
    ∀ (l : List α) (e : ε), exceptMap f l = .error e → ∃ a ∈ l, f a = .error e := by
  intro l
  induction l with
  | nil => intro e he; exact absurd he (by simp [exceptMap])
  | cons x xs ih =>
    intro e he
    cases hfa : f x with
    | error e2 =>
      rw [exceptMap, hfa] at he
      injection he with h
      exact ⟨x, List.mem_cons_self x xs, h ▸ hfa⟩
    | ok b =>
      rw [exceptMap, hfa] at he
      cases hrest : exceptMap f xs with
      | error e2 =>
        rw [hrest] at he
        obtain ⟨a, ha, hfa2⟩ := ih e2 hrest
        exact ⟨a, List.mem_cons_of_mem x ha, by injection he with h; rw [← h]; exact hfa2⟩
      | ok bs2 => rw [hrest] at he; exact absurd he (by simp)

theorem exceptMap_error_of_mem {α β : Type} (f : α → Except Unit β) :
    ∀ (l : List α) (a : α), a ∈ l → f a = .error () → exceptMap f l = .error () := by
  intro l
  induction l with
  | nil => intro a ha; exact absurd ha (List.not_mem_nil a)
  | cons x xs ih =>
    intro a ha hfa
    rcases List.mem_cons.mp ha with rfl | hmem
    · rw [exceptMap, hfa]
    · cases hfx : f x with
      | error e => cases e; rw [exceptMap, hfx]
      | ok b => rw [exceptMap, hfx, ih a hmem hfa]

/-! ### `splitOnChar` -/

theorem splitOnChar_ne_nil (c : Char) : ∀ xs, splitOnChar c xs ≠ [] := by
  intro xs
  induction xs with
  | nil => simp [splitOnChar]
  | cons x xs ih =>
    rw [splitOnChar]
    cases h : splitOnChar c xs with
    | nil => simp
    | cons y ys => by_cases hx : x = c <;> simp [hx]

theorem splitOnChar_of_not_mem (c : Char) : ∀ xs, c ∉ xs → splitOnChar c xs = [xs] := by
  intro xs
  induction xs with
  | nil => intro _; rfl
  | cons x xs ih =>
    intro h
    have hx : x ≠ c := fun he => h (he ▸ List.mem_cons_self x xs)
    have hxs : c ∉ xs := fun hm => h (List.mem_cons_of_mem x hm)
    rw [splitOnChar, ih hxs]
    simp [hx]

theorem splitOnChar_append (c : Char) : ∀ xs ys, c ∉ xs →
    splitOnChar c (xs ++ c :: ys) = xs :: splitOnChar c ys := by
  intro xs
  induction xs with
  | nil =>
    intro ys _
    rw [List.nil_append, splitOnChar]
    cases h : splitOnChar c ys with
    | nil => exact absurd h (splitOnChar_ne_nil c ys)
    | cons y ys2 => simp
  | cons x xs ih =>
    intro ys h
    have hx : x ≠ c := fun he => h (he ▸ List.mem_cons_self x xs)
    have hxs : c ∉ xs := fun hm => h (List.mem_cons_of_mem x hm)
    rw [List.cons_append, splitOnChar, ih ys hxs]
    simp [hx]

/-! ### `splitSeps` -/

theorem splitSeps_ne_nil : ∀ xs, splitSeps xs ≠ [] := by
  intro xs
  induction xs with
  | nil => simp [splitSeps]
  | cons x xs ih =>
    rw [splitSeps]
    cases h : splitSeps xs with
    | nil => simp
    | cons y ys =>
      by_cases hx : isSep x
      · cases xs with
        | nil => simp [hx]
        | cons x2 xs2 => by_cases hx2 : isSep x2 <;> simp [hx, hx2]
      · simp [hx]

theorem splitSeps_cons_nonsep {x : Char} {xs : List Char} {y : List Char} {ys : List (List Char)}
    (hx : isSep x = false) (h : splitSeps xs = y :: ys) :
    splitSeps (x :: xs) = (x :: y) :: ys := by
  rw [splitSeps, h]
  simp [hx]

theorem splitSeps_all_nonsep : ∀ xs : List Char, (∀ c ∈ xs, isSep c = false) →
    splitSeps xs = [xs] := by
  intro xs
  induction xs with
  | nil => intro _; rfl
  | cons x xs ih =>
    intro h
    have hx : isSep x = false := h x (List.mem_cons_self x xs)
    have hxs : ∀ c ∈ xs, isSep c = false := fun c hc => h c (List.mem_cons_of_mem x hc)
    exact splitSeps_cons_nonsep hx (ih hxs)

/-- Value of `splitSeps` on `@lang` with a non-empty separator-free `lang`. -/
theorem splitSeps_at_lang {l : List Char} (hl : l ≠ []) (hlc : ∀ c ∈ l, isSep c = false) :
    splitSeps ('@' :: l) = [[], l] := by
  cases l with
  | nil => exact absurd rfl hl
  | cons c l2 =>
    rw [splitSeps, splitSeps_all_nonsep _ hlc]
    have hc : isSep c = false := hlc c (List.mem_cons_self c l2)
    simp [isSep] at hc
    simp [isSep, hc]

/-- Value of `splitSeps` on `name"@lang` where `name` may be empty. -/
theorem splitSeps_name_at_lang {n l : List Char} (hn : ∀ c ∈ n, isSep c = false)
    (hl : l ≠ []) (hlc : ∀ c ∈ l, isSep c = false) :
    splitSeps (n ++ '"' :: '@' :: l) = [n, l] := by
  induction n with
  | nil =>
    rw [List.nil_append, splitSeps, splitSeps_at_lang hl hlc]
    simp [isSep]
  | cons a n2 ih =>
    have ha : isSep a = false := hn a (List.mem_cons_self a n2)
    have hn2 : ∀ c ∈ n2, isSep c = false := fun c hc => hn c (List.mem_cons_of_mem a hc)
    rw [List.cons_append]
    exact splitSeps_cons_nonsep ha (ih hn2)

/-- Value of `splitSeps` on a full later segment `"name"@lang`. -/
theorem splitSeps_seg {n l : List Char} (hn0 : n ≠ []) (hn : ∀ c ∈ n, isSep c = false)
    (hl : l ≠ []) (hlc : ∀ c ∈ l, isSep c = false) :
    splitSeps ('"' :: (n ++ '"' :: '@' :: l)) = [[], n, l] := by
  cases n with
  | nil => exact absurd rfl hn0
  | cons a n2 =>
    rw [splitSeps, splitSeps_name_at_lang hn hl hlc]
    have ha : isSep a = false := hn a (List.mem_cons_self a n2)
    simp [isSep] at ha
    simp [isSep, List.cons_append, ha]

/-- Value of `splitSeps` on the first segment `pre"name"@lang` with a non-empty
separator-free prefix `pre` (the `kind:ID` marker). -/
theorem splitSeps_first_seg {pre n l : List Char} (hp0 : pre ≠ [])
    (hp : ∀ c ∈ pre, isSep c = false) (hn0 : n ≠ []) (hn : ∀ c ∈ n, isSep c = false)
    (hl : l ≠ []) (hlc : ∀ c ∈ l, isSep c = false) :
    splitSeps (pre ++ '"' :: (n ++ '"' :: '@' :: l)) = [pre, n, l] := by
  induction pre with
  | nil => exact absurd rfl hp0
  | cons a pre2 ih =>
    have ha : isSep a = false := hp a (List.mem_cons_self a pre2)
    have hp2 : ∀ c ∈ pre2, isSep c = false := fun c hc => hp c (List.mem_cons_of_mem a hc)
    cases pre2 with
    | nil =>
      rw [List.cons_append, List.nil_append]
      exact splitSeps_cons_nonsep ha (splitSeps_seg hn0 hn hl hlc)
    | cons b pre3 =>
      rw [List.cons_append]
      exact splitSeps_cons_nonsep ha (ih (by simp) hp2)

/-! ### Character classes -/

theorem wordChar_not_sep {c : Char} (h : wordChar c = true) : isSep c = false := by
  rcases hs : isSep c with _ | _
  · rfl
  · simp [isSep] at hs
    rcases hs with rfl | rfl <;> exact absurd h (by decide)

theorem wordChar_ne_slash {c : Char} (h : wordChar c = true) : c ≠ '/' := by
  intro rfl2
  subst rfl2
  exact absurd h (by decide)

theorem wordChar_not_ws {c : Char} (h : wordChar c = true) : c.isWhitespace = false := by
  have h1 : c ≠ ' ' := fun he => absurd (he ▸ h) (by decide)
  have h2 : c ≠ '\t' := fun he => absurd (he ▸ h) (by decide)
  have h3 : c ≠ '\x0d' := fun he => absurd (he ▸ h) (by decide)
  have h4 : c ≠ '\n' := fun he => absurd (he ▸ h) (by decide)
  simp [Char.isWhitespace, h1, h2, h3, h4]

theorem upper_wordChar {c : Char} (h : c.isUpper = true) : wordChar c = true := by
  simp [wordChar, Char.isAlphanum, Char.isAlpha, h]

theorem digit_wordChar {c : Char} (h : c.isDigit = true) : wordChar c = true := by
  simp [wordChar, Char.isAlphanum, h]

theorem plainChar_spec {c : Char} (h : plainChar c = true) :
    isSep c = false ∧ c ≠ '/' ∧ c.isWhitespace = false := by
  rw [plainChar] at h
  simp only [Bool.and_eq_true, Bool.not_eq_true'] at h
  exact ⟨h.1.1, by simpa using h.1.2, h.2⟩

/-! ### `takeWhile` / `dropWhile` / `stripChars` -/

theorem takeWhile_eq_self {α : Type} {p : α → Bool} :
    ∀ l : List α, (∀ a ∈ l, p a = true) → l.takeWhile p = l := by
  intro l
  induction l with
  | nil => intro _; rfl
  | cons x xs ih =>
    intro h
    simp [List.takeWhile_cons, h x (List.mem_cons_self x xs),
      ih fun a ha => h a (List.mem_cons_of_mem x ha)]

theorem takeWhile_append_stop {α : Type} {p : α → Bool} :
    ∀ (xs : List α) (y : α) (ys : List α), (∀ a ∈ xs, p a = true) → p y = false →
      (xs ++ y :: ys).takeWhile p = xs ∧ (xs ++ y :: ys).dropWhile p = y :: ys := by
  intro xs
  induction xs with
  | nil =>
    intro y ys _ hy
    rw [List.nil_append]
    exact ⟨by simp [List.takeWhile_cons, hy], by simp [List.dropWhile_cons, hy]⟩
  | cons x xs ih =>
    intro y ys h hy
    have hx : p x = true := h x (List.mem_cons_self x xs)
    obtain ⟨ht, hd⟩ := ih y ys (fun a ha => h a (List.mem_cons_of_mem x ha)) hy
    rw [List.cons_append]
    exact ⟨by simp [List.takeWhile_cons, hx, ht], by simp [List.dropWhile_cons, hx, hd]⟩

theorem dropWhile_eq_self {α : Type} {p : α → Bool} :
    ∀ l : List α, (∀ a ∈ l, p a = false) → l.dropWhile p = l := by
  intro l
  induction l with
  | nil => intro _; rfl
  | cons x xs _ =>
    intro h
    simp [List.dropWhile_cons, h x (List.mem_cons_self x xs)]

theorem stripChars_eq_self {s : List Char} (h : ∀ c ∈ s, c.isWhitespace = false) :
    stripChars s = s := by
  rw [stripChars, dropWhile_eq_self s h,
    dropWhile_eq_self s.reverse (fun c hc => h c (List.mem_reverse.mp hc)), List.reverse_reverse]

/-! ### `reSearch` on a well-formed `kind:ID` prefix -/

theorem reSearch_marker {kind : List Char} {u : Char} {ds : List Char}
    (hk0 : kind ≠ []) (hkw : ∀ c ∈ kind, wordChar c = true)
    (hu : u.isUpper = true) (hds0 : ds ≠ []) (hdsw : ∀ c ∈ ds, c.isDigit = true) :
    reSearch (kind ++ ':' :: u :: ds) = some (kind, u :: ds) := by
  obtain ⟨ht, hd⟩ := takeWhile_append_stop kind ':' (u :: ds) hkw (by decide)
  have hm : matchAt (kind ++ ':' :: u :: ds) = some (kind, u :: ds) := by
    rw [matchAt]
    simp only [ht, hd]
    rw [if_neg hk0]
    simp only [hu, if_true]
    rw [takeWhile_eq_self ds hdsw, if_neg hds0]
  cases kind with
  | nil => exact absurd rfl hk0
  | cons k kind2 =>
    rw [List.cons_append, reSearch, ← List.cons_append, hm]

/-! ### `subfields` and `Hint.parse` -/

theorem subfields_error_iff (part : List Char) :
    subfields part = .error () ↔ (splitSeps (stripChars part)).length < 3 := by
  rcases h : splitSeps (stripChars part) with _ | ⟨a, _ | ⟨b, _ | ⟨c, tl⟩⟩⟩ <;>
    simp [subfields, h]

theorem subfields_of_three {part a n l : List Char}
    (h : splitSeps (stripChars part) = [a, n, l]) : subfields part = .ok (n, l) := by
  simp [subfields, h]

theorem parse_unfold {text p0 : List Char} {rest : List (List Char)}
    (hsp : splitOnChar '/' text = p0 :: rest) :
    Hint.parse text =
      match reSearch ((splitSeps (stripChars p0)).headD []) with
      | none => .error ()
      | some (t, i) =>
        match subfields p0 with
        | .error e => .error e
        | .ok pr0 =>
          match exceptMap subfields rest with
          | .error e => .error e
          | .ok prs => .ok (t, i, pr0 :: prs) := by
  rw [Hint.parse, hsp]

/-! ### Characters of the encoded format -/

theorem mem_encodeSeg {c : Char} {p : List Char × List Char} (h : c ∈ encodeSeg p) :
    c = '"' ∨ c = '@' ∨ c ∈ p.1 ∨ c ∈ p.2 := by
  simp [encodeSeg] at h
  tauto

theorem encodeSeg_ne_slash {p : List Char × List Char}
    (hp1 : ∀ c ∈ p.1, plainChar c = true) (hp2 : ∀ c ∈ p.2, plainChar c = true) :
    '/' ∉ encodeSeg p := by
  intro hmem
  rcases mem_encodeSeg hmem with h | h | h | h
  · exact absurd h (by decide)
  · exact absurd h (by decide)
  · exact absurd rfl (plainChar_spec (hp1 _ h)).2.1
  · exact absurd rfl (plainChar_spec (hp2 _ h)).2.1

theorem encodeSeg_not_ws {p : List Char × List Char}
    (hp1 : ∀ c ∈ p.1, plainChar c = true) (hp2 : ∀ c ∈ p.2, plainChar c = true) :
    ∀ c ∈ encodeSeg p, c.isWhitespace = false := by
  intro c hc
  rcases mem_encodeSeg hc with h | h | h | h
  · subst h; decide
  · subst h; decide
  · exact (plainChar_spec (hp1 _ h)).2.2
  · exact (plainChar_spec (hp2 _ h)).2.2

/-- Every character of the `kind:ID` marker is a word character or the colon. -/
theorem mem_marker {kind : List Char} {u : Char} {ds : List Char} {c : Char}
    (hkw : ∀ c ∈ kind, wordChar c = true) (hu : u.isUpper = true)
    (hdsw : ∀ c ∈ ds, c.isDigit = true) (hc : c ∈ kind ++ ':' :: u :: ds) :
    wordChar c = true ∨ c = ':' := by
  rcases List.mem_append.mp hc with h | h
  · exact Or.inl (hkw c h)
  · rcases List.mem_cons.mp h with rfl | h2
    · exact Or.inr rfl
    · rcases List.mem_cons.mp h2 with rfl | h3
      · exact Or.inl (upper_wordChar hu)
      · exact Or.inl (digit_wordChar (hdsw c h3))

theorem marker_not_sep {kind : List Char} {u : Char} {ds : List Char}
    (hkw : ∀ c ∈ kind, wordChar c = true) (hu : u.isUpper = true)
    (hdsw : ∀ c ∈ ds, c.isDigit = true) :
    ∀ c ∈ kind ++ ':' :: u :: ds, isSep c = false := by
  intro c hc
  rcases mem_marker hkw hu hdsw hc with h | rfl
  · exact wordChar_not_sep h
  · decide

theorem marker_not_ws {kind : List Char} {u : Char} {ds : List Char}
    (hkw : ∀ c ∈ kind, wordChar c = true) (hu : u.isUpper = true)
    (hdsw : ∀ c ∈ ds, c.isDigit = true) :
    ∀ c ∈ kind ++ ':' :: u :: ds, c.isWhitespace = false := by
  intro c hc
  rcases mem_marker hkw hu hdsw hc with h | rfl
  · exact wordChar_not_ws h
  · decide

theorem marker_ne_slash {kind : List Char} {u : Char} {ds : List Char}
    (hkw : ∀ c ∈ kind, wordChar c = true) (hu : u.isUpper = true)
    (hdsw : ∀ c ∈ ds, c.isDigit = true) :
    '/' ∉ kind ++ ':' :: u :: ds := by
  intro hc
  rcases mem_marker hkw hu hdsw hc with h | h
  · exact absurd rfl (wordChar_ne_slash h)
  · exact absurd h (by decide)

/-- Decoding one later `"name"@lang` segment. -/
theorem subfields_encodeSeg {n l : List Char} (hn0 : n ≠ []) (hl0 : l ≠ [])
    (hn : ∀ c ∈ n, plainChar c = true) (hl : ∀ c ∈ l, plainChar c = true) :
    subfields (encodeSeg (n, l)) = .ok (n, l) := by
  have hstrip : stripChars (encodeSeg (n, l)) = encodeSeg (n, l) :=
    stripChars_eq_self (encodeSeg_not_ws hn hl)
  have hsplit : splitSeps (encodeSeg (n, l)) = [[], n, l] :=
    splitSeps_seg hn0 (fun c hc => (plainChar_spec (hn c hc)).1) hl0
      (fun c hc => (plainChar_spec (hl c hc)).1)
  exact subfields_of_three (by rw [hstrip, hsplit])

theorem exceptMap_subfields_encodeSeg :
    ∀ ps : List (List Char × List Char),
      (∀ p ∈ ps, p.1 ≠ [] ∧ p.2 ≠ [] ∧ (∀ c ∈ p.1, plainChar c = true) ∧
        ∀ c ∈ p.2, plainChar c = true) →
      exceptMap subfields (ps.map encodeSeg) = .ok ps := by
  intro ps
  induction ps with
  | nil => intro _; rfl
  | cons p ps ih =>
    intro h
    obtain ⟨h1, h2, h3, h4⟩ := h p (List.mem_cons_self p ps)
    have hsub : subfields (encodeSeg p) = .ok (p.1, p.2) :=
      subfields_encodeSeg h1 h2 h3 h4
    rw [List.map_cons, exceptMap, hsub, ih fun q hq => h q (List.mem_cons_of_mem p hq)]

/-- Splitting the full encoded string on `/`. -/
theorem splitOnChar_encode :
    ∀ (ps : List (List Char × List Char)) (seg : List Char), '/' ∉ seg →
      (∀ p ∈ ps, '/' ∉ encodeSeg p) →
      splitOnChar '/' (seg ++ (ps.map fun q => '/' :: encodeSeg q).flatten) =
        seg :: ps.map encodeSeg := by
  intro ps
  induction ps with
  | nil =>
    intro seg hseg _
    rw [List.map_nil, List.flatten_nil, List.append_nil, List.map_nil]
    exact splitOnChar_of_not_mem '/' seg hseg
  | cons q qs ih =>
    intro seg hseg hall
    have hq : '/' ∉ encodeSeg q := hall q (List.mem_cons_self q qs)
    have hqs : ∀ p ∈ qs, '/' ∉ encodeSeg p := fun p hp => hall p (List.mem_cons_of_mem q hp)
    rw [List.map_cons, List.flatten_cons, List.cons_append,
      splitOnChar_append '/' seg _ hseg, ih (encodeSeg q) hq hqs, List.map_cons]

end E2E

namespace E2E

/-! ## Claim C2 -/

/-- Claim C2 (amended): `Hint.parse` fails with `MalformedHintError` exactly
when the first subfield of the first `/`-delimited segment — the text before
the segment's first quote/`@` character — does not contain a
`kind:identifier` pattern, or when some segment has fewer than three
subfields after splitting on runs of quote/`@` characters (that is, lacks a
name or a language subfield); and the failure is all-or-nothing: `parse`
returns either the error or a complete record, never a partial one.  (The
original claim scanned the whole first segment for the pattern; the code
scans only `elements[0]`, see the counterexample.) -/
theorem parse_malformed_iff (text : List Char) :
    (Hint.parse text = .error () ↔
      reSearch ((splitSeps (stripChars ((splitOnChar '/' text).headD []))).headD []) = none
        ∨ ∃ part ∈ splitOnChar '/' text, (splitSeps (stripChars part)).length < 3) ∧
    (Hint.parse text = .error () ∨ ∃ r, Hint.parse text = .ok r) := by
  rcases hsp : splitOnChar '/' text with _ | ⟨p0, rest⟩
  · exact absurd hsp (splitOnChar_ne_nil '/' text)
  constructor
  · rw [parse_unfold hsp]
    simp only [hsp, List.headD_cons]
    constructor
    · intro hp
      cases hr : reSearch ((splitSeps (stripChars p0)).headD []) with
      | none => exact Or.inl rfl
      | some g =>
        obtain ⟨t, i⟩ := g
        simp only [hr] at hp
        cases hsub : subfields p0 with
        | error e =>
          cases e
          exact Or.inr ⟨p0, List.mem_cons_self p0 rest, (subfields_error_iff p0).mp hsub⟩
        | ok pr0 =>
          simp only [hsub] at hp
          cases hem : exceptMap subfields rest with
          | error e =>
            cases e
            obtain ⟨p, hpm, hperr⟩ := exceptMap_error_mem subfields rest () hem
            exact Or.inr ⟨p, List.mem_cons_of_mem p0 hpm, (subfields_error_iff p).mp hperr⟩
          | ok prs =>
            simp only [hem] at hp
            exact absurd hp (by simp)
    · intro hc
      rcases hc with hr | ⟨part, hpm, hlen⟩
      · rw [hr]
      · rcases List.mem_cons.mp hpm with rfl | hpm2
        · have hsub : subfields part = .error () := (subfields_error_iff part).mpr hlen
          cases hr : reSearch ((splitSeps (stripChars part)).headD []) with
          | none => rfl
          | some g =>
            obtain ⟨t, i⟩ := g
            rw [hsub]
        · have hem : exceptMap subfields rest = .error () :=
            exceptMap_error_of_mem subfields rest part hpm2 ((subfields_error_iff part).mpr hlen)
          cases hr : reSearch ((splitSeps (stripChars p0)).headD []) with
          | none => rfl
          | some g =>
            obtain ⟨t, i⟩ := g
            cases hsub : subfields p0 with
            | error e => cases e; rfl
            | ok pr0 => rw [hem]
  · cases hres : Hint.parse text with
    | error e => cases e; exact Or.inl rfl
    | ok r => exact Or.inr ⟨r, rfl⟩

/-- Claim C2 counterexample: on `"abc:A1"@en` the first (only) segment does
contain the `kind:identifier` pattern `abc:A1` — `re.search` over the whole
segment finds it — and the segment has three subfields, so by the claim
`parse` should succeed; but the code searches only `elements[0]`, which here
is empty, and `parse` raises. -/
theorem parse_malformed_counterexample :
    Hint.parse quotedMarker = .error () ∧
    reSearch ((splitOnChar '/' quotedMarker).headD []) =
      some (['a', 'b', 'c'], ['A', '1']) ∧
    ((splitOnChar '/' quotedMarker).all
      fun part => decide (3 ≤ (splitSeps (stripChars part)).length)) = true :=
  ⟨by decide, by decide, by decide⟩

/-- Claim C2 witness: a string with no marker at all fails to parse, by the
amended characterisation. -/
theorem parse_malformed_witness : Hint.parse ['x'] = .error () :=
  ((parse_malformed_iff ['x']).1).mpr (Or.inl (by decide))

/-! ## Claim C8 -/

/-- Claim C8: for every well-formed encoded hint string
`kind:ID"Name0"@Lang0/"Name1"@Lang1/...` — word-character kind, identifier
an uppercase letter followed by digits, names and language tags non-empty
and free of `/`, quote, `@` and whitespace — `parse` returns the kind, the
identifier, the name/language pairs in segment order, and the first name as
the primary name. -/
theorem hint_parse_round_trip
    (kind : List Char) (u : Char) (ds n0 l0 : List Char) (ps : List (List Char × List Char))
    (hk0 : kind ≠ []) (hkw : ∀ c ∈ kind, wordChar c = true)
    (hu : u.isUpper = true) (hds0 : ds ≠ []) (hdsw : ∀ c ∈ ds, c.isDigit = true)
    (hpairs : ∀ p ∈ (n0, l0) :: ps,
      p.1 ≠ [] ∧ p.2 ≠ [] ∧ (∀ c ∈ p.1, plainChar c = true) ∧ ∀ c ∈ p.2, plainChar c = true) :
    Hint.ofText (encodeHint kind (u :: ds) ((n0, l0) :: ps)) =
      .ok ⟨encodeHint kind (u :: ds) ((n0, l0) :: ps), kind, u :: ds, (n0, l0) :: ps, n0⟩ := by
  obtain ⟨hn00, hl00, hn0c, hl0c⟩ := hpairs (n0, l0) (List.mem_cons_self _ _)
  have hpairs2 : ∀ p ∈ ps, p.1 ≠ [] ∧ p.2 ≠ [] ∧ (∀ c ∈ p.1, plainChar c = true) ∧
      ∀ c ∈ p.2, plainChar c = true := fun p hp => hpairs p (List.mem_cons_of_mem _ hp)
  have hseg0eq : encodeHint kind (u :: ds) ((n0, l0) :: ps) =
      ((kind ++ ':' :: u :: ds) ++ encodeSeg (n0, l0)) ++
        (ps.map fun q => '/' :: encodeSeg q).flatten := by
    simp [encodeHint, List.append_assoc]
  have hslash0 : '/' ∉ (kind ++ ':' :: u :: ds) ++ encodeSeg (n0, l0) := by
    intro h
    rcases List.mem_append.mp h with h | h
    · exact marker_ne_slash hkw hu hdsw h
    · exact encodeSeg_ne_slash hn0c hl0c h
  have hsplit : splitOnChar '/' (encodeHint kind (u :: ds) ((n0, l0) :: ps)) =
      ((kind ++ ':' :: u :: ds) ++ encodeSeg (n0, l0)) :: ps.map encodeSeg := by
    rw [hseg0eq]
    exact splitOnChar_encode ps _ hslash0
      fun p hp => encodeSeg_ne_slash (hpairs2 p hp).2.2.1 (hpairs2 p hp).2.2.2
  have hstrip0 : stripChars ((kind ++ ':' :: u :: ds) ++ encodeSeg (n0, l0)) =
      (kind ++ ':' :: u :: ds) ++ encodeSeg (n0, l0) := by
    apply stripChars_eq_self
    intro c hc
    rcases List.mem_append.mp hc with h | h
    · exact marker_not_ws hkw hu hdsw c h
    · exact encodeSeg_not_ws hn0c hl0c c h
  have hpre0 : kind ++ ':' :: u :: ds ≠ [] := by simp
  have hsplitseps : splitSeps ((kind ++ ':' :: u :: ds) ++ encodeSeg (n0, l0)) =
      [kind ++ ':' :: u :: ds, n0, l0] := by
    have he : (kind ++ ':' :: u :: ds) ++ encodeSeg (n0, l0) =
        (kind ++ ':' :: u :: ds) ++ '"' :: (n0 ++ '"' :: '@' :: l0) := rfl
    rw [he]
    exact splitSeps_first_seg hpre0 (marker_not_sep hkw hu hdsw) hn00
      (fun c hc => (plainChar_spec (hn0c c hc)).1) hl00
      fun c hc => (plainChar_spec (hl0c c hc)).1
  have hsearch : reSearch
      ((splitSeps (stripChars ((kind ++ ':' :: u :: ds) ++ encodeSeg (n0, l0)))).headD []) =
      some (kind, u :: ds) := by
    rw [hstrip0, hsplitseps]
    exact reSearch_marker hk0 hkw hu hds0 hdsw
  have hsub0 : subfields ((kind ++ ':' :: u :: ds) ++ encodeSeg (n0, l0)) = .ok (n0, l0) :=
    subfields_of_three (by rw [hstrip0, hsplitseps])
  have hem : exceptMap subfields (ps.map encodeSeg) = .ok ps :=
    exceptMap_subfields_encodeSeg ps hpairs2
  have hparse : Hint.parse (encodeHint kind (u :: ds) ((n0, l0) :: ps)) =
      .ok (kind, u :: ds, (n0, l0) :: ps) := by
    rw [parse_unfold hsplit, hsearch, hsub0, hem]
  simp only [Hint.ofText, hparse]

/-- Claim C8 witness: decoding `kind:A1"A"@en/"B"@de` yields kind `kind`,
identifier `A1`, pairs `[(A, en), (B, de)]` and primary name `A`. -/
theorem hint_parse_round_trip_witness :
    Hint.ofText (encodeHint ['k', 'i', 'n', 'd'] ['A', '1']
        [(['A'], ['e', 'n']), (['B'], ['d', 'e'])]) =
      .ok ⟨encodeHint ['k', 'i', 'n', 'd'] ['A', '1']
          [(['A'], ['e', 'n']), (['B'], ['d', 'e'])],
        ['k', 'i', 'n', 'd'], ['A', '1'],
        [(['A'], ['e', 'n']), (['B'], ['d', 'e'])], ['A']⟩ :=
  hint_parse_round_trip ['k', 'i', 'n', 'd'] 'A' ['1'] ['A'] ['e', 'n']
    [(['B'], ['d', 'e'])] (by decide) (by decide) (by decide) (by decide)
    (by decide) (by decide)

/-! ### The `init_page` loop over explicit index lists -/

theorem upRange_append_last : ∀ (len s : Nat), upRange s (len + 1) = upRange s len ++ [s + len] := by
  intro len
  induction len with
  | zero => intro s; simp [upRange]
  | succ k ih =>
    intro s
    have e1 : upRange s (k + 2) = s :: upRange (s + 1) (k + 1) := rfl
    have e2 : upRange s (k + 1) = s :: upRange (s + 1) k := rfl
    rw [e1, e2, ih (s + 1), List.cons_append]
    have : s + 1 + k = s + (k + 1) := by omega
    rw [this]

theorem range_eq_upRange (n : Nat) : List.range n = upRange 0 n := by
  induction n with
  | zero => rfl
  | succ k ih =>
    rw [List.range_succ, ih, upRange_append_last k 0, Nat.zero_add]

theorem initPageGo_loaded (attempt : Nat → Bool) (n : Nat) :
    ∀ (len s k : Nat), s + len = n → s ≤ k → k < n → attempt k = true →
      (∀ j, s ≤ j → j < k → attempt j = false) →
      initPageGo attempt n (upRange s len) = .loaded (k + 1) := by
  intro len
  induction len with
  | zero => intro s k h1 h2 h3 _ _; omega
  | succ m ih =>
    intro s k h1 h2 h3 hk hprev
    have e : upRange s (m + 1) = s :: upRange (s + 1) m := rfl
    rw [e]
    by_cases hsk : s = k
    · subst hsk
      simp [initPageGo, hk]
    · have hs : attempt s = false := hprev s le_rfl (lt_of_le_of_ne h2 hsk)
      have hlt : s < n - 1 := by omega
      simp only [initPageGo, hs, Bool.false_eq_true, if_false, if_pos hlt]
      exact ih (s + 1) k (by omega) (by omega) h3 hk fun j hj1 hj2 => hprev j (by omega) hj2

theorem initPageGo_fatal (attempt : Nat → Bool) (n : Nat) :
    ∀ (len s : Nat), s + len = n → 1 ≤ len →
      (∀ j, s ≤ j → j < n → attempt j = false) →
      initPageGo attempt n (upRange s len) = .fatalExit n := by
  intro len
  induction len with
  | zero => intro s _ h; omega
  | succ m ih =>
    intro s h1 _ hall
    have e : upRange s (m + 1) = s :: upRange (s + 1) m := rfl
    rw [e]
    have hs : attempt s = false := hall s le_rfl (by omega)
    cases m with
    | zero =>
      have hlt : ¬s < n - 1 := by omega
      simp [initPageGo, hs, hlt]
    | succ m2 =>
      have hlt : s < n - 1 := by omega
      simp only [initPageGo, hs, Bool.false_eq_true, if_false, if_pos hlt]
      exact ih (s + 1) (by omega) (by omega) fun j hj1 hj2 => hall j (by omega) hj2

theorem initPageGo_fatal_inv (attempt : Nat → Bool) (n : Nat) :
    ∀ (len s m : Nat), s + len = n → initPageGo attempt n (upRange s len) = .fatalExit m →
      m = n ∧ 1 ≤ n ∧ ∀ j, s ≤ j → j < n → attempt j = false := by
  intro len
  induction len with
  | zero =>
    intro s m _ h
    exact absurd h (by simp [upRange, initPageGo])
  | succ m2 ih =>
    intro s m h1 h
    have e : upRange s (m2 + 1) = s :: upRange (s + 1) m2 := rfl
    rw [e] at h
    cases hs : attempt s with
    | true => rw [initPageGo, if_pos hs] at h; exact absurd h (by simp)
    | false =>
      rw [initPageGo, if_neg (by simp [hs])] at h
      by_cases hlt : s < n - 1
      · rw [if_pos hlt] at h
        obtain ⟨hm, hn, hrest⟩ := ih (s + 1) m (by omega) h
        refine ⟨hm, hn, fun j hj1 hj2 => ?_⟩
        rcases Nat.eq_or_lt_of_le hj1 with rfl | hj3
        · exact hs
        · exact hrest j hj3 hj2
      · rw [if_neg hlt] at h
        injection h with hm
        refine ⟨hm.symm, by omega, fun j hj1 hj2 => ?_⟩
        have : j = s := by omega
        rw [this]
        exact hs

theorem initPage_loaded (attempt : Nat → Bool) (n k : Nat) (h3 : k < n)
    (hk : attempt k = true) (hprev : ∀ j, j < k → attempt j = false) :
    initPage attempt n = .loaded (k + 1) := by
  rw [initPage, range_eq_upRange]
  exact initPageGo_loaded attempt n n 0 k (by omega) (by omega) h3 hk
    fun j _ hj => hprev j hj

theorem initPage_fatal (attempt : Nat → Bool) (n : Nat) (hn : 1 ≤ n)
    (hall : ∀ j, j < n → attempt j = false) :
    initPage attempt n = .fatalExit n := by
  rw [initPage, range_eq_upRange]
  exact initPageGo_fatal attempt n n 0 (by omega) hn fun j _ hj => hall j hj

theorem initPage_fatal_inv {attempt : Nat → Bool} {n m : Nat}
    (h : initPage attempt n = .fatalExit m) :
    m = n ∧ 1 ≤ n ∧ ∀ j, j < n → attempt j = false := by
  rw [initPage, range_eq_upRange] at h
  obtain ⟨hm, hn, hrest⟩ := initPageGo_fatal_inv attempt n n 0 m (by omega) h
  exact ⟨hm, hn, fun j hj => hrest j (by omega) hj⟩

/-! ### Tracing a fatal exit back to `init_page` -/

theorem runExampleCase_fatal {nr : Nat} {env : ExampleCaseEnv} {m : Nat}
    (h : runExampleCase nr env = .error (.fatalExit m)) :
    initPage env.pageLoad nr = .fatalExit m := by
  cases hi : initPage env.pageLoad nr with
  | fatalExit k =>
    simp only [runExampleCase, hi] at h
    injection h with h2
    injection h2 with h3
    rw [h3]
  | loaded k =>
    simp only [runExampleCase, hi] at h
    repeat' split at h
    all_goals simp_all
  | fellThrough =>
    simp only [runExampleCase, hi] at h
    repeat' split at h
    all_goals simp_all

theorem runHintCase_fatal {nr : Nat} {env : HintCaseEnv} {m : Nat}
    (h : runHintCase nr env = .error (.fatalExit m)) :
    initPage env.pageLoad nr = .fatalExit m := by
  cases hi : initPage env.pageLoad nr with
  | fatalExit k =>
    simp only [runHintCase, hi] at h
    injection h with h2
    injection h2 with h3
    rw [h3]
  | loaded k =>
    simp only [runHintCase, hi] at h
    repeat' split at h
    all_goals simp_all
  | fellThrough =>
    simp only [runHintCase, hi] at h
    repeat' split at h
    all_goals simp_all

theorem testAll_fatal {nr : Nat} {ex : List ExampleCaseEnv} {hs : List HintCaseEnv} {m : Nat}
    (h : testAll nr ex hs = .error (.fatalExit m)) :
    (∃ env ∈ ex, initPage env.pageLoad nr = .fatalExit m) ∨
      ∃ env ∈ hs, initPage env.pageLoad nr = .fatalExit m := by
  rw [testAll] at h
  cases he : testExamples nr ex with
  | error a =>
    rw [he] at h
    injection h with h2
    obtain ⟨env, henv, herr⟩ := exceptMap_error_mem _ ex a he
    exact Or.inl ⟨env, henv, runExampleCase_fatal (h2 ▸ herr)⟩
  | ok es =>
    rw [he] at h
    cases hh : testHints nr hs with
    | error a =>
      rw [hh] at h
      injection h with h2
      obtain ⟨env, henv, herr⟩ := exceptMap_error_mem _ hs a hh
      exact Or.inr ⟨env, henv, runHintCase_fatal (h2 ▸ herr)⟩
    | ok hsr => rw [hh] at h; exact absurd h (by simp)

end E2E

namespace E2E

/-! ## Claim C6 -/

/-- Claim C6 (amended): the loader returns immediately on the first attempt
on which the ready selector appears; when `maxRetries ≥ 1` and every attempt
fails it performs exactly `maxRetries` attempts, then session shutdown and
process exit with non-zero status; when `maxRetries = 0` the loop body never
runs and the method returns with no page loaded and no exit; the fatal exit
arises only from retry exhaustion, and a whole run aborts with the fatal
exit only when some test case's loader exhausted its retries (uncaught
exceptions are a separate abort path, see the counterexample). -/
theorem init_page_retry_spec :
    (∀ (attempt : Nat → Bool) (n k : Nat), k < n → attempt k = true →
      (∀ j, j < k → attempt j = false) → initPage attempt n = .loaded (k + 1)) ∧
    (∀ (attempt : Nat → Bool) (n : Nat), 1 ≤ n → (∀ j, j < n → attempt j = false) →
      initPage attempt n = .fatalExit n) ∧
    (∀ attempt : Nat → Bool, initPage attempt 0 = .fellThrough) ∧
    (∀ (attempt : Nat → Bool) (n m : Nat), initPage attempt n = .fatalExit m →
      m = n ∧ 1 ≤ n ∧ ∀ j, j < n → attempt j = false) ∧
    (∀ (nr : Nat) (ex : List ExampleCaseEnv) (hs : List HintCaseEnv) (m : Nat),
      testAll nr ex hs = .error (.fatalExit m) →
        (∃ env ∈ ex, ∀ j, j < nr → env.pageLoad j = false) ∨
          ∃ env ∈ hs, ∀ j, j < nr → env.pageLoad j = false) := by
  refine ⟨initPage_loaded, initPage_fatal, fun attempt => rfl, ?_, ?_⟩
  · intro attempt n m h
    exact initPage_fatal_inv h
  · intro nr ex hs m h
    rcases testAll_fatal h with ⟨env, henv, hfatal⟩ | ⟨env, henv, hfatal⟩
    · exact Or.inl ⟨env, henv, (initPage_fatal_inv hfatal).2.2⟩
    · exact Or.inr ⟨env, henv, (initPage_fatal_inv hfatal).2.2⟩

/-- Claim C6 counterexample: a run whose only hint test case collects a
malformed raw hint aborts the process through an uncaught exception — a
process-fatal error path that is not the retry-exhaustion path, refuting
"this retry-exhaustion path is the system's only process-fatal error
path".  (Every page load succeeds here, so no retry is ever exhausted.) -/
theorem fatal_not_only_abort_counterexample :
    testAll 5 [] [hintEnvBadRaw] = .error .exception ∧
    Abort.exception ≠ Abort.fatalExit 5 ∧
    initPage hintEnvBadRaw.pageLoad 5 = .loaded 1 :=
  ⟨by decide, by decide, by decide⟩

/-- Claim C6 witness: with `maxRetries = 2` and both attempts failing, the
loader performs its 2 attempts and exits fatally, reporting 2 attempts. -/
theorem init_page_retry_witness : initPage (fun _ => false) 2 = .fatalExit 2 :=
  init_page_retry_spec.2.1 (fun _ => false) 2 (by decide) fun _ _ => rfl

end E2E

namespace E2E

/-! ### List indexing helpers -/

theorem drop_cons_of_get? {α : Type} :
    ∀ (l : List α) (n : Nat) (a : α), l.get? n = some a →
      l.drop n = a :: l.drop (n + 1) := by
  intro l
  induction l with
  | nil => intro n a h; simp [List.get?] at h
  | cons x xs ih =>
    intro n a h
    cases n with
    | zero =>
      injection h with h2
      simp [List.drop_succ_cons, h2]
    | succ j =>
      rw [List.drop_succ_cons, List.drop_succ_cons]
      exact ih j a h

theorem zipWith_get? {α β γ : Type} (f : α → β → γ) :
    ∀ (l1 : List α) (l2 : List β) (i : Nat),
      (List.zipWith f l1 l2).get? i =
        match l1.get? i, l2.get? i with
        | some a, some b => some (f a b)
        | _, _ => none := by
  intro l1
  induction l1 with
  | nil => intro l2 i; rfl
  | cons a l1 ih =>
    intro l2 i
    cases l2 with
    | nil =>
      cases i with
      | zero => rfl
      | succ j => cases hg : l1.get? j <;> simp [List.zipWith, List.get?]
    | cons b l2 =>
      cases i with
      | zero => rfl
      | succ j => exact ih l2 j

/-! ### `compareHints` -/

theorem compareHintsAux_cons (hints : List Hint) (e : List (List Char))
    (es : List (List (List Char))) (i : Nat) :
    compareHintsAux hints (e :: es) i =
      match hints.get? i with
      | none => .error ()
      | some h =>
        if h.database_id ∈ e then
          match compareHintsAux hints es (i + 1) with
          | .error e2 => .error e2
          | .ok rs => .ok (true :: rs)
        else
          match e.get? 0, e.get? 1 with
          | some _, some _ =>
            match compareHintsAux hints es (i + 1) with
            | .error e2 => .error e2
            | .ok rs => .ok (false :: rs)
          | _, _ => .error () := rfl

theorem compareHintsAux_ok (hints : List Hint) :
    ∀ (es : List (List (List Char))) (i : Nat),
      (∀ e ∈ es, 2 ≤ e.length) → i + es.length ≤ hints.length →
      compareHintsAux hints es i = .ok (List.zipWith matchHint (hints.drop i) es) := by
  intro es
  induction es with
  | nil => intro i _ _; simp [compareHintsAux]
  | cons e es ih =>
    intro i hwf hlen
    have hi : i < hints.length := by simp only [List.length_cons] at hlen; omega
    cases hg : hints.get? i with
    | none =>
      rw [List.get?_eq_none] at hg
      omega
    | some h =>
      have hdrop : hints.drop i = h :: hints.drop (i + 1) := drop_cons_of_get? hints i h hg
      have hrec := ih (i + 1) (fun e2 he2 => hwf e2 (List.mem_cons_of_mem e he2))
        (by simp only [List.length_cons] at hlen; omega)
      rw [hdrop, List.zipWith_cons_cons]
      by_cases hm : h.database_id ∈ e
      · have hmatch : matchHint h e = true := by simp [matchHint, hm]
        simp only [compareHintsAux, hg, if_pos hm, hrec, hmatch]
      · have hmatch : matchHint h e = false := by simp [matchHint, hm]
        rcases e with _ | ⟨a, _ | ⟨b, tl⟩⟩
        · exact absurd (hwf [] (List.mem_cons_self _ _)) (by simp)
        · exact absurd (hwf [a] (List.mem_cons_self _ _)) (by simp)
        · simp only [compareHintsAux, hg, if_neg hm, List.get?, hrec, hmatch]

theorem compareHintsAux_err (hints : List Hint) :
    ∀ (es : List (List (List Char))) (i : Nat), es ≠ [] → hints.length < i + es.length →
      compareHintsAux hints es i = .error () := by
  intro es
  induction es with
  | nil => intro i hne _; exact absurd rfl hne
  | cons e es ih =>
    intro i _ h
    cases hg : hints.get? i with
    | none => rw [compareHintsAux_cons, hg]
    | some hh =>
      have hi : i < hints.length := by
        by_contra hcon
        rw [List.get?_eq_none.mpr (by omega)] at hg
        exact absurd hg (by simp)
      cases es with
      | nil =>
        simp only [List.length_cons, List.length_nil] at h
        exact absurd hi (by omega)
      | cons e2 es2 =>
        have htail : compareHintsAux hints (e2 :: es2) (i + 1) = .error () := by
          apply ih (i + 1) (by simp)
          simp only [List.length_cons] at h ⊢
          omega
        by_cases hm : hh.database_id ∈ e
        · rw [compareHintsAux_cons, htail]
          simp only [hg, if_pos hm]
        · rw [compareHintsAux_cons, htail]
          rcases h0 : e.get? 0 with _ | a
          · simp only [hg, if_neg hm, h0]
          · rcases h1 : e.get? 1 with _ | b
            · simp only [hg, if_neg hm, h0, h1]
            · simp only [hg, if_neg hm, h0, h1]

theorem compareHints_ok {hints : List Hint} {expected : List (List (List Char))}
    (hwf : ∀ e ∈ expected, 2 ≤ e.length) (hlen : expected.length ≤ hints.length) :
    compareHints hints expected = .ok (List.zipWith matchHint hints expected) := by
  have h := compareHintsAux_ok hints expected 0 hwf (by omega)
  simpa [compareHints] using h

end E2E

namespace E2E

/-! ## Claim C4 -/

/-- Claim C4: in the hint path every position `i < len(expectedHints)` is
compared, with no early stop after a mismatch: the result holds one entry
per expected position, position `i` matches exactly when
`actualHints[i].databaseId` is a member of `expectedHints[i]`'s entry list,
and the case status is Passed exactly when every position matched, else
PartiallyFailed carrying the count of failing positions.  (Hypotheses:
enough hints were collected — the shortfall case is claim C9 — and each
catalogue entry carries its id strings and display name, at least two
fields, as the data model prescribes.) -/
theorem hints_all_positions_checked (hints : List Hint) (expected : List (List (List Char)))
    (hlen : expected.length ≤ hints.length) (hwf : ∀ e ∈ expected, 2 ≤ e.length) :
    compareHints hints expected = .ok (List.zipWith matchHint hints expected) ∧
    (List.zipWith matchHint hints expected).length = expected.length ∧
    (∀ i, (List.zipWith matchHint hints expected).get? i = some true ↔
      ∃ h e, hints.get? i = some h ∧ expected.get? i = some e ∧ h.database_id ∈ e) ∧
    (hintCaseStatus (List.zipWith matchHint hints expected) = .passed ↔
      ∀ b ∈ List.zipWith matchHint hints expected, b = true) ∧
    (¬(∀ b ∈ List.zipWith matchHint hints expected, b = true) →
      hintCaseStatus (List.zipWith matchHint hints expected) =
        .failed ((List.zipWith matchHint hints expected).countP fun b => !b)) := by
  refine ⟨compareHints_ok hwf hlen, ?_, ?_, ?_, ?_⟩
  · rw [List.length_zipWith]
    omega
  · intro i
    rw [zipWith_get? matchHint hints expected i]
    cases hg1 : hints.get? i with
    | none =>
      have h2 : expected.get? i = none := by
        rw [List.get?_eq_none] at hg1 ⊢
        omega
      simp [h2]
    | some h =>
      cases hg2 : expected.get? i with
      | none => simp
      | some e => simp [matchHint]
  · have hcount : ((List.zipWith matchHint hints expected).countP fun b => !b) = 0 ↔
        ∀ b ∈ List.zipWith matchHint hints expected, b = true := by
      rw [List.countP_eq_zero]
      simp
    by_cases hc : ((List.zipWith matchHint hints expected).countP fun b => !b) = 0
    · simp only [hintCaseStatus, if_pos hc]
      exact ⟨fun _ => hcount.mp hc, fun _ => by trivial⟩
    · simp only [hintCaseStatus, if_neg hc]
      constructor
      · intro hcontra
        exact absurd hcontra (by simp)
      · intro hall
        exact absurd (hcount.mpr hall) hc
  · intro hnot
    have hc : ((List.zipWith matchHint hints expected).countP fun b => !b) ≠ 0 := by
      intro h0
      have hcount : ∀ b ∈ List.zipWith matchHint hints expected, b = true := by
        have := List.countP_eq_zero.mp h0
        simpa using this
      exact hnot hcount
    simp only [hintCaseStatus, if_neg hc]

/-- Claim C4 witness: three expected positions with only the middle one
mismatching produce exactly the results `[true, false, true]` and the
status "1 test failed". -/
theorem hints_all_positions_checked_witness :
    compareHints
      [⟨['x'], ['t'], ['Q', '1'], [(['a'], ['e'])], ['a']⟩,
        ⟨['y'], ['t'], ['Q', '7'], [(['b'], ['e'])], ['b']⟩,
        ⟨['z'], ['t'], ['Q', '3'], [(['c'], ['e'])], ['c']⟩]
      [[['Q', '1'], ['n', '1']], [['Q', '2'], ['n', '2']], [['Q', '3'], ['n', '3']]] =
      .ok [true, false, true] ∧
    hintCaseStatus [true, false, true] = .failed 1 := by
  have h := hints_all_positions_checked
    [⟨['x'], ['t'], ['Q', '1'], [(['a'], ['e'])], ['a']⟩,
      ⟨['y'], ['t'], ['Q', '7'], [(['b'], ['e'])], ['b']⟩,
      ⟨['z'], ['t'], ['Q', '3'], [(['c'], ['e'])], ['c']⟩]
    [[['Q', '1'], ['n', '1']], [['Q', '2'], ['n', '2']], [['Q', '3'], ['n', '3']]]
    (by decide) (by decide)
  refine ⟨?_, by decide⟩
  rw [h.1]
  decide

/-! ## Claim C10 -/

/-- Claim C10: each expected hint entry is a single string list used both
as the membership set of the positional match and as the `(id, name)`
display pair of the failure message (`entry[0]`, `entry[1]`); consequently
a position also counts as matched when the actual hint's `databaseId`
equals the entry's human-readable display name `entry[1]`, not only when it
equals one of the intended acceptable id values. -/
theorem entry_display_name_matches (h : Hint) (e : List (List Char))
    (hname : e.get? 1 = some h.database_id) :
    matchHint h e = true ∧
    ∀ (hints : List Hint) (expected : List (List (List Char))) (i : Nat),
      expected.length ≤ hints.length → (∀ e2 ∈ expected, 2 ≤ e2.length) →
      hints.get? i = some h → expected.get? i = some e →
      ∃ rs, compareHints hints expected = .ok rs ∧ rs.get? i = some true := by
  have hmem : h.database_id ∈ e := List.get?_mem hname
  have hmatch : matchHint h e = true := by simp [matchHint, hmem]
  refine ⟨hmatch, ?_⟩
  intro hints expected i hlen hwf hg1 hg2
  refine ⟨_, compareHints_ok hwf hlen, ?_⟩
  rw [zipWith_get? matchHint hints expected i]
  simp only [hg1, hg2, hmatch]

/-- Claim C10 witness: an actual hint whose databaseId is the display name
`DA` of the entry `[Q42, DA]` is counted as matched. -/
theorem entry_display_name_matches_witness :
    matchHint ⟨['x'], ['t'], ['D', 'A'], [(['n'], ['e'])], ['n']⟩
      [['Q', '4', '2'], ['D', 'A']] = true :=
  (entry_display_name_matches ⟨['x'], ['t'], ['D', 'A'], [(['n'], ['e'])], ['n']⟩
    [['Q', '4', '2'], ['D', 'A']] (by decide)).1

/-! ## Claim C9 -/

/-- Claim C9: the hint comparison indexes `hints[i]` for every
`i < len(expectedHints)` without checking the collected length: it raises
(IndexError) whenever fewer hints than expected positions were collected,
so it is total only under `len(actualHints) ≥ len(expectedHints)`; in
particular, when `get_hints` returned the empty sequence while expected
hints exist, the test case dies with the uncaught IndexError instead of
reporting the missing positions as mismatches. -/
theorem hints_compare_needs_enough (hints : List Hint) (expected : List (List (List Char))) :
    (hints.length < expected.length → compareHints hints expected = .error ()) ∧
    (hints = [] → expected ≠ [] → compareHints hints expected = .error ()) ∧
    (expected ≠ [] → runHintCase 1 (hintEnvNoHints expected) = .error .exception) := by
  have herr : hints.length < expected.length → compareHints hints expected = .error () := by
    intro h
    have hne : expected ≠ [] := by
      intro h0
      rw [h0] at h
      simp at h
    exact compareHintsAux_err hints expected 0 hne (by omega)
  refine ⟨herr, ?_, ?_⟩
  · intro h1 h2
    subst h1
    exact compareHintsAux_err [] expected 0 h2 (by simpa using List.length_pos.mpr h2)
  · intro h2
    have hcomp : compareHints [] expected = .error () :=
      compareHintsAux_err [] expected 0 h2 (by simpa using List.length_pos.mpr h2)
    have hstep : runHintCase 1 (hintEnvNoHints expected) =
        match compareHints [] expected with
        | .error _ => .error .exception
        | .ok rs => .ok (rs, hintCaseStatus rs) := rfl
    rw [hstep, hcomp]

/-- Claim C9 witness: no hints collected, one expected position — the
comparison raises and the whole hint test case aborts. -/
theorem hints_compare_needs_enough_witness :
    compareHints [] [[['Q']]] = .error () ∧
    runHintCase 1 (hintEnvNoHints [[['Q']]]) = .error .exception := by
  have h := hints_compare_needs_enough [] [[['Q']]]
  exact ⟨h.1 (by decide), h.2.2 (by decide)⟩

end E2E

namespace E2E

/-! ### `exampleCompare` -/

theorem exampleCompareGo_mismatch (lines : List (List Char)) :
    ∀ (es : List (List Char)) (i k : Nat) (t u : List Char),
      (∀ j, j < i → lines.get? (k + j) = es.get? j) →
      es.get? i = some u → lines.get? (k + i) = some t → t ≠ u →
      exampleCompareGo lines es k = some (List.replicate i true ++ [false], false) := by
  intro es
  induction es with
  | nil => intro i k t u _ hu _ _; simp [List.get?] at hu
  | cons u0 es ih =>
    intro i k t u hprev hu ht hne
    cases i with
    | zero =>
      injection hu with hu2
      subst hu2
      rw [exampleCompareGo, show k + 0 = k from rfl] at *
      rw [ht]
      simp [hne]
    | succ i2 =>
      have h0 : lines.get? k = some u0 := by
        have := hprev 0 (by omega)
        simpa using this
      rw [exampleCompareGo, h0]
      simp only [if_pos rfl]
      have hrec := ih i2 (k + 1) t u
        (fun j hj => by
          have := hprev (j + 1) (by omega)
          simpa [Nat.add_assoc, Nat.add_comm 1 j] using this)
        (by simpa using hu)
        (by
          have : k + (i2 + 1) = k + 1 + i2 := by omega
          rw [← this]
          exact ht)
        hne
      rw [hrec]
      simp [List.replicate_succ]

theorem exampleCompareGo_all_match (lines : List (List Char)) :
    ∀ (es : List (List Char)) (k : Nat),
      (∀ j, j < es.length → lines.get? (k + j) = es.get? j) →
      exampleCompareGo lines es k = some (List.replicate es.length true, true) := by
  intro es
  induction es with
  | nil => intro k _; rfl
  | cons u0 es ih =>
    intro k hall
    have h0 : lines.get? k = some u0 := by
      have := hall 0 (by simp)
      simpa using this
    rw [exampleCompareGo, h0]
    simp only [if_pos rfl]
    have hrec := ih (k + 1) fun j hj => by
      have := hall (j + 1) (by simp; omega)
      simpa [Nat.add_assoc, Nat.add_comm 1 j] using this
    rw [hrec]
    simp [List.replicate_succ]

/-! ## Claim C5 -/

/-- Claim C5: the example path compares expected lines against rendered
lines by position and stops at the first mismatching line: with the first
mismatch at position `i`, exactly positions `0..i` are evaluated (`i`
passing results then the single failing one — later lines are never
evaluated) and the test case is recorded failed; when every expected line
matches its counterpart, all positions are evaluated and the case is
recorded successful. -/
theorem example_compare_stops_at_first_mismatch (lines expected : List (List Char)) :
    (∀ (i : Nat) (t u : List Char),
      (∀ j, j < i → lines.get? j = expected.get? j) →
      expected.get? i = some u → lines.get? i = some t → t ≠ u →
      exampleCompare lines expected = some (List.replicate i true ++ [false], false)) ∧
    ((∀ j, j < expected.length → lines.get? j = expected.get? j) →
      exampleCompare lines expected = some (List.replicate expected.length true, true)) := by
  constructor
  · intro i t u hprev hu ht hne
    exact exampleCompareGo_mismatch lines expected i 0 t u
      (fun j hj => by simpa using hprev j hj) hu (by simpa using ht) hne
  · intro hall
    exact exampleCompareGo_all_match lines expected 0 fun j hj => by simpa using hall j hj

/-- Claim C5 witness: three expected lines with the mismatch at position 1
produce exactly one passing and one failing evaluation; position 2 is never
evaluated. -/
theorem example_compare_stops_witness :
    exampleCompare [['a'], ['b']] [['a'], ['x'], ['d']] =
      some (List.replicate 1 true ++ [false], false) := by
  apply (example_compare_stops_at_first_mismatch [['a'], ['b']] [['a'], ['x'], ['d']]).1
    1 ['b'] ['x']
  · intro j hj
    have hj0 : j = 0 := by omega
    subst hj0
    rfl
  · rfl
  · rfl
  · decide

end E2E

namespace E2E

/-! ## Claim C1 -/

theorem runHintCase_decode_error {nr : Nat} {env : HintCaseEnv} {raws : List (List Char)}
    (hg : getHints env.polls = .ok raws) {raw : List Char} (hraw : raw ∈ raws)
    (hbad : Hint.ofText raw = .error ()) (r : List Bool × CaseStatus) :
    runHintCase nr env ≠ .ok r := by
  intro hok
  have hdec : exceptMap Hint.ofText raws = .error () :=
    exceptMap_error_of_mem Hint.ofText raws raw hraw hbad
  cases hi : initPage env.pageLoad nr <;> cases htf : env.textfieldPresent <;>
    simp [runHintCase, hi, htf, hg, hdec] at hok

/-- Claim C1 (amended): a raw hint string that cannot be decoded raises an
uncaught exception inside the decoding comprehension, aborting the whole
hint run: no report list is ever produced — the decode failure is not
recorded as a per-position mismatch, and the remaining positions and test
cases are never examined. -/
theorem malformed_hint_aborts_run (nr : Nat) (cs : List HintCaseEnv)
    (env : HintCaseEnv) (hmem : env ∈ cs) (raws : List (List Char))
    (hg : getHints env.polls = .ok raws) (raw : List Char) (hraw : raw ∈ raws)
    (hbad : Hint.ofText raw = .error ()) :
    ∀ reports, testHints nr cs ≠ .ok reports := by
  intro reports hok
  obtain ⟨r, hr⟩ := exceptMap_ok_mem (runHintCase nr) cs reports hok env hmem
  exact runHintCase_decode_error hg hraw hbad r hr

/-- Claim C1 counterexample: a hint run whose first test case collects the
undecodable raw hint `garbage` ends in an uncaught exception; the second
test case (which would succeed) is never reached, and no report with a
recorded mismatch exists — refuting "the decode failure is recorded as a
mismatch for that position and execution continues". -/
theorem malformed_hint_aborts_counterexample :
    Hint.ofText badRaw = .error () ∧
    testHints 1 [hintEnvBadRaw, hintEnvGood] = .error .exception :=
  ⟨by decide, by decide⟩

/-- Claim C1 witness: the amended theorem applied to the concrete
one-case run. -/
theorem malformed_hint_aborts_witness : testHints 1 [hintEnvBadRaw] ≠ .ok [] :=
  malformed_hint_aborts_run 1 [hintEnvBadRaw] hintEnvBadRaw
    (List.mem_singleton.mpr rfl) [badRaw] (by decide) badRaw (by decide) (by decide) []

/-! ## Claim C3 -/

/-- Claim C3 (code bug): evaluating the example path at the failing input.
When the examples button element is absent, `find_element` raises
`NoSuchElementException`, which nothing catches: the run aborts instead of
recording the case as Skipped (the source's `if not examples_button:` guard
with exactly that warning is dead code, because `find_element` raises
rather than returning a falsy value).  The present-but-hidden dropdown
branch, by contrast, is live and does skip the case as the claim states. -/
theorem examples_missing_button_aborts :
    testExamples 1 [exEnvMissingButton] = .error .exception ∧
    testExamples 1 [exEnvHiddenDropdown] = .ok [.skipped] :=
  ⟨by decide, by decide⟩

end E2E

namespace E2E

/-! ### `get_hints` scanning -/

theorem scanHints_all_placeholder :
    ∀ hs : List (List Char), (∀ t ∈ hs, placeholderPrefixed t = true) →
      scanHints hs = .ok false := by
  intro hs
  induction hs with
  | nil => intro _; rfl
  | cons t ts ih =>
    intro h
    have ht := h t (List.mem_cons_self t ts)
    cases t with
    | nil => simp [placeholderPrefixed] at ht
    | cons c cs =>
      simp [placeholderPrefixed] at ht
      subst ht
      have hts := ih fun t2 h2 => h t2 (List.mem_cons_of_mem _ h2)
      simp [scanHints, hts]

theorem scanHints_found :
    ∀ hs : List (List Char), (∀ t ∈ hs, t ≠ []) →
      (∃ t ∈ hs, placeholderPrefixed t = false) → scanHints hs = .ok true := by
  intro hs
  induction hs with
  | nil => intro _ hex; simp at hex
  | cons t ts ih =>
    intro hne hex
    cases t with
    | nil => exact absurd rfl (hne [] (List.mem_cons_self _ _))
    | cons c cs =>
      by_cases hc : c = '?'
      · subst hc
        have hex2 : ∃ t ∈ ts, placeholderPrefixed t = false := by
          rcases hex with ⟨t2, ht2, hph⟩
          rcases List.mem_cons.mp ht2 with rfl | hmem
          · simp [placeholderPrefixed] at hph
          · exact ⟨t2, hmem, hph⟩
        simp [scanHints, ih (fun t2 h2 => hne t2 (List.mem_cons_of_mem _ h2)) hex2]
      · simp [scanHints, hc]

theorem getHints_exhausted :
    ∀ polls : List (Option (List (List Char))),
      (∀ o ∈ polls, pollAllPlaceholder o = true) → getHints polls = .ok [] := by
  intro polls
  induction polls with
  | nil => intro _; rfl
  | cons o rest ih =>
    intro h
    have hrest := ih fun o2 h2 => h o2 (List.mem_cons_of_mem o h2)
    cases o with
    | none => simpa [getHints] using hrest
    | some hs =>
      have hph : ∀ t ∈ hs, placeholderPrefixed t = true := by
        have := h (some hs) (List.mem_cons_self _ _)
        simpa [pollAllPlaceholder, List.all_eq_true] using this
      rw [getHints, scanHints_all_placeholder hs hph]
      exact hrest

theorem getHints_ready :
    ∀ (pre : List (Option (List (List Char)))) (hs : List (List Char))
      (post : List (Option (List (List Char)))),
      (∀ o ∈ pre, pollAllPlaceholder o = true) → (∀ t ∈ hs, t ≠ []) →
      (∃ t ∈ hs, placeholderPrefixed t = false) →
      getHints (pre ++ some hs :: post) = .ok hs := by
  intro pre
  induction pre with
  | nil =>
    intro hs post _ hne hex
    rw [List.nil_append, getHints, scanHints_found hs hne hex]
  | cons o pre2 ih =>
    intro hs post h hne hex
    have hrest := ih hs post (fun o2 h2 => h o2 (List.mem_cons_of_mem o h2)) hne hex
    cases o with
    | none => simpa [getHints] using hrest
    | some hs2 =>
      have hph : ∀ t ∈ hs2, placeholderPrefixed t = true := by
        have := h (some hs2) (List.mem_cons_self _ _)
        simpa [pollAllPlaceholder, List.all_eq_true] using this
      rw [List.cons_append, getHints, scanHints_all_placeholder hs2 hph]
      exact hrest

/-! ## Claim C7 -/

/-- Claim C7 (amended): `get_hints` polls until the first poll at which the
pop-up is present and some element's displayed text does not start with the
placeholder marker `?`, and returns that poll's full enumeration, including
any placeholder-prefixed elements still present — provided every displayed
text is non-empty (an element with empty text makes `hint.text[0]` raise an
uncaught IndexError, see the counterexample); when the polls are exhausted
with each observation either absent or all-placeholder, the empty sequence
is returned. -/
theorem get_hints_first_ready_poll (polls : List (Option (List (List Char)))) :
    ((∀ o ∈ polls, pollAllPlaceholder o = true) → getHints polls = .ok []) ∧
    (∀ (pre : List (Option (List (List Char)))) (hs : List (List Char))
      (post : List (Option (List (List Char)))),
      polls = pre ++ some hs :: post →
      (∀ o ∈ pre, pollAllPlaceholder o = true) →
      (∀ t ∈ hs, t ≠ []) →
      (∃ t ∈ hs, placeholderPrefixed t = false) →
      getHints polls = .ok hs) := by
  constructor
  · exact getHints_exhausted polls
  · intro pre hs post heq hpre hne hex
    rw [heq]
    exact getHints_ready pre hs post hpre hne hex

/-- Claim C7 counterexample: one poll shows a single element with empty
displayed text.  The empty text does not start with `?`, so by the claim
the enumeration should be returned; the code evaluates `hint.text[0]` and
dies with an uncaught IndexError instead. -/
theorem get_hints_empty_text_counterexample :
    placeholderPrefixed [] = false ∧
    getHints [some [([] : List Char)]] = .error () :=
  ⟨rfl, rfl⟩

/-- Claim C7 witness: two placeholder-only polls (one absent, one showing
only `?a`), then a poll with `?x` and `a` — the full third enumeration is
returned, placeholder element included. -/
theorem get_hints_first_ready_poll_witness :
    getHints [none, some [['?', 'a']], some [['?', 'x'], ['a']]] =
      .ok [['?', 'x'], ['a']] := by
  apply (get_hints_first_ready_poll
    [none, some [['?', 'a']], some [['?', 'x'], ['a']]]).2
    [none, some [['?', 'a']]] [['?', 'x'], ['a']] []
  · rfl
  · decide
  · decide
  · decide

end E2E
